import Mathlib

/-!
Verification of the `solana-pubkey-compare` crate: a shallow embedding of
`src/lib.rs` (the generic `fast_eq` dispatch function), `build.rs` (the
target-conditional build step), and the foreign word-wise comparison routine
`__solana_pubkey_compare__fast_eq`, together with proofs of the specified
properties (path equivalence, sensitivity, reflexivity, symmetry, totality,
build-step target detection, rebuild dependency, missing-env default).
-/

/-- A 32-byte region (the `Key` data model: an opaque fixed-length sequence of
exactly 32 bytes, each byte a value below 256). -/
def Bytes32 : Type := Fin 32 → Fin 256

/-- Little-endian 8-byte word `i` of a 32-byte region: the four `u64` values
read when the region's address is reinterpreted as `*const u64`, in address
order (bytes `8*i .. 8*i+7`). -/
def leWord (a : Bytes32) : Fin 4 → Nat
  | ⟨i, hi⟩ =>
    (a ⟨8 * i + 0, by omega⟩).val + 256 *
    ((a ⟨8 * i + 1, by omega⟩).val + 256 *
    ((a ⟨8 * i + 2, by omega⟩).val + 256 *
    ((a ⟨8 * i + 3, by omega⟩).val + 256 *
    ((a ⟨8 * i + 4, by omega⟩).val + 256 *
    ((a ⟨8 * i + 5, by omega⟩).val + 256 *
    ((a ⟨8 * i + 6, by omega⟩).val + 256 *
    (a ⟨8 * i + 7, by omega⟩).val))))))

/-- Modelled from the spec: the foreign comparison routine
`__solana_pubkey_compare__fast_eq`, whose implementation (the assembly source
`assert_pubkey_eq.s`) is not part of the Rust sources; only its `extern "C"`
declaration appears in `src/lib.rs`. Per the spec (section 4.2): view each
32-byte region as four 8-byte words in address order, compare corresponding
words pairwise starting from the first, stop at the first mismatching pair
and report not-equal, and report equal when all four pairs match. -/
def solana_pubkey_compare__fast_eq (lhs_ptr rhs_ptr : Fin 4 → Nat) : Bool :=
  if lhs_ptr 0 != rhs_ptr 0 then false
  else if lhs_ptr 1 != rhs_ptr 1 then false
  else if lhs_ptr 2 != rhs_ptr 2 then false
  else if lhs_ptr 3 != rhs_ptr 3 then false
  else true

/-- The dispatch function `fast_eq<T: AsRef<[u8]> + PartialEq>` of
`src/lib.rs`. The compile-time `cfg(target_os = "solana")` branch is modelled
by the boolean `targetOsSolana`; the trait bounds by the `asRef` (byte view)
and `beq` (structural equality, `PartialEq`) functions; and the pointer
reinterpretation `lhs as *const _ as *const u64` by `memWords`, the four
8-byte words at the operand's own address. On the Solana target it calls the
foreign routine on the two word views; on every other target it returns
`lhs == rhs` directly. -/
def fast_eq {T : Type} (targetOsSolana : Bool)
    (asRef : T → List (Fin 256)) (beq : T → T → Bool)
    (memWords : T → Fin 4 → Nat) (lhs rhs : T) : Bool :=
  if targetOsSolana then
    solana_pubkey_compare__fast_eq (memWords lhs) (memWords rhs)
  else
    beq lhs rhs

/-- The byte view of a `Key`: its 32 bytes in address order (the
`AsRef<[u8]>` projection of a 32-byte array). -/
def keyAsRef (a : Bytes32) : List (Fin 256) :=
  (List.finRange 32).map a

/-- Structural equality of `Key`s (the `PartialEq` of a 32-byte array): two
keys are equal exactly when all 32 bytes match. -/
def keyBeq (a b : Bytes32) : Bool :=
  decide (∀ k : Fin 32, a k = b k)

/-- The dispatch function instantiated at the `Key` type, whose memory
representation is exactly its 32-byte view. -/
def fast_eq_key (targetOsSolana : Bool) (a b : Bytes32) : Bool :=
  fast_eq targetOsSolana keyAsRef keyBeq leWord a b

/-- Boolean test that `hay` starts with `needle`. -/
def startsWithChars : List Char → List Char → Bool
  | [], _ => true
  | _ :: _, [] => false
  | a :: ns, b :: bs => a == b && startsWithChars ns bs

/-- Boolean substring search: `needle` occurs somewhere in `hay` (the
semantics of Rust's `str::contains` with a string pattern). -/
def containsSub : List Char → List Char → Bool
  | [], needle => needle.isEmpty
  | a :: t, needle => startsWithChars needle (a :: t) || containsSub t needle

/-- Rust's `target.contains(pat)`: substring containment on strings. -/
def strContains (hay needle : String) : Bool :=
  containsSub hay.data needle.data

/-- Specification-side substring predicate: `needle` occurs contiguously
inside `hay`. -/
def hasSubstr (hay needle : String) : Prop :=
  ∃ pre suf, hay.data = pre ++ needle.data ++ suf

/-- The observable effects of one run of the build script. -/
structure BuildEffects where
  /-- Whether `cc::Build` compiled and linked `assert_pubkey_eq.s`. -/
  compiledAsm : Bool
  /-- The `cargo:rerun-if-changed` declarations printed. -/
  rerunIfChanged : List String

namespace Build

/-- The `main` function of `build.rs`: read the `TARGET` environment variable
(defaulting to the empty string when absent), compile and link the assembly
module exactly when the target string contains `"sbf"` or `"solana"`, and
unconditionally declare a rebuild dependency on `assert_pubkey_eq.s`. -/
def main (envTarget : Option String) : BuildEffects :=
  let target := envTarget.getD ""
  { compiledAsm := strContains target "sbf" || strContains target "solana"
    rerunIfChanged := ["assert_pubkey_eq.s"] }

end Build

/-- A sample key: all 32 bytes equal to 1. -/
def exA : Bytes32 := fun _ => (1 : Fin 256)

/-- An independently constructed key with the same bytes as `exA`. -/
def exACopy : Bytes32 := fun _ => (1 : Fin 256)

/-- A key differing from `exA` only in the last byte (index 31, inside the
fourth 8-byte word). -/
def exBLast : Bytes32 := fun k => if k.val = 31 then (2 : Fin 256) else (1 : Fin 256)

lemma le8_fin (x0 x1 x2 x3 x4 x5 x6 x7 y0 y1 y2 y3 y4 y5 y6 y7 : Fin 256)
    (h : x0.val + 256 * (x1.val + 256 * (x2.val + 256 * (x3.val + 256 *
          (x4.val + 256 * (x5.val + 256 * (x6.val + 256 * x7.val))))))
       = y0.val + 256 * (y1.val + 256 * (y2.val + 256 * (y3.val + 256 *
          (y4.val + 256 * (y5.val + 256 * (y6.val + 256 * y7.val))))))) :
    x0 = y0 ∧ x1 = y1 ∧ x2 = y2 ∧ x3 = y3 ∧ x4 = y4 ∧ x5 = y5 ∧ x6 = y6 ∧ x7 = y7 := by
  have b0 := x0.isLt; have b1 := x1.isLt; have b2 := x2.isLt; have b3 := x3.isLt
  have b4 := x4.isLt; have b5 := x5.isLt; have b6 := x6.isLt; have b7 := x7.isLt
  have c0 := y0.isLt; have c1 := y1.isLt; have c2 := y2.isLt; have c3 := y3.isLt
  have c4 := y4.isLt; have c5 := y5.isLt; have c6 := y6.isLt; have c7 := y7.isLt
  have hv : x0.val = y0.val ∧ x1.val = y1.val ∧ x2.val = y2.val ∧ x3.val = y3.val ∧
      x4.val = y4.val ∧ x5.val = y5.val ∧ x6.val = y6.val ∧ x7.val = y7.val := by omega
  exact ⟨Fin.ext hv.1, Fin.ext hv.2.1, Fin.ext hv.2.2.1, Fin.ext hv.2.2.2.1,
    Fin.ext hv.2.2.2.2.1, Fin.ext hv.2.2.2.2.2.1, Fin.ext hv.2.2.2.2.2.2.1,
    Fin.ext hv.2.2.2.2.2.2.2⟩

lemma word_bytes (a b : Bytes32) (i : Nat) (hi : i < 4)
    (h : leWord a ⟨i, hi⟩ = leWord b ⟨i, hi⟩) :
    a ⟨8 * i + 0, by omega⟩ = b ⟨8 * i + 0, by omega⟩ ∧
    a ⟨8 * i + 1, by omega⟩ = b ⟨8 * i + 1, by omega⟩ ∧
    a ⟨8 * i + 2, by omega⟩ = b ⟨8 * i + 2, by omega⟩ ∧
    a ⟨8 * i + 3, by omega⟩ = b ⟨8 * i + 3, by omega⟩ ∧
    a ⟨8 * i + 4, by omega⟩ = b ⟨8 * i + 4, by omega⟩ ∧
    a ⟨8 * i + 5, by omega⟩ = b ⟨8 * i + 5, by omega⟩ ∧
    a ⟨8 * i + 6, by omega⟩ = b ⟨8 * i + 6, by omega⟩ ∧
    a ⟨8 * i + 7, by omega⟩ = b ⟨8 * i + 7, by omega⟩ := by
  simp only [leWord] at h
  exact le8_fin _ _ _ _ _ _ _ _ _ _ _ _ _ _ _ _ h

lemma words_eq_iff (a b : Bytes32) :
    (∀ i : Fin 4, leWord a i = leWord b i) ↔ ∀ k : Fin 32, a k = b k := by
  constructor
  · intro h
    obtain ⟨e0, e1, e2, e3, e4, e5, e6, e7⟩ := word_bytes a b 0 (by omega) (h ⟨0, by omega⟩)
    obtain ⟨e8, e9, e10, e11, e12, e13, e14, e15⟩ := word_bytes a b 1 (by omega) (h ⟨1, by omega⟩)
    obtain ⟨e16, e17, e18, e19, e20, e21, e22, e23⟩ := word_bytes a b 2 (by omega) (h ⟨2, by omega⟩)
    obtain ⟨e24, e25, e26, e27, e28, e29, e30, e31⟩ := word_bytes a b 3 (by omega) (h ⟨3, by omega⟩)
    intro k
    obtain ⟨k, hk⟩ := k
    interval_cases k
    exacts [e0, e1, e2, e3, e4, e5, e6, e7, e8, e9, e10, e11, e12, e13, e14, e15,
      e16, e17, e18, e19, e20, e21, e22, e23, e24, e25, e26, e27, e28, e29, e30, e31]
  · intro h i
    obtain ⟨i, hi⟩ := i
    simp only [leWord]
    rw [h ⟨8 * i + 0, by omega⟩, h ⟨8 * i + 1, by omega⟩, h ⟨8 * i + 2, by omega⟩,
      h ⟨8 * i + 3, by omega⟩, h ⟨8 * i + 4, by omega⟩, h ⟨8 * i + 5, by omega⟩,
      h ⟨8 * i + 6, by omega⟩, h ⟨8 * i + 7, by omega⟩]

lemma asm_eq_true_iff (p q : Fin 4 → Nat) :
    solana_pubkey_compare__fast_eq p q = true ↔ ∀ i : Fin 4, p i = q i := by
  have expand : solana_pubkey_compare__fast_eq p q = true ↔
      (p 0 = q 0 ∧ p 1 = q 1 ∧ p 2 = q 2 ∧ p 3 = q 3) := by
    by_cases h0 : p 0 = q 0 <;> by_cases h1 : p 1 = q 1 <;>
      by_cases h2 : p 2 = q 2 <;> by_cases h3 : p 3 = q 3 <;>
      simp [solana_pubkey_compare__fast_eq, h0, h1, h2, h3]
  rw [expand]
  constructor
  · rintro ⟨h0, h1, h2, h3⟩ i
    fin_cases i <;> assumption
  · intro h
    exact ⟨h 0, h 1, h 2, h 3⟩

lemma fast_eq_true_eq {T : Type} (asRef : T → List (Fin 256)) (beq : T → T → Bool)
    (memWords : T → Fin 4 → Nat) (lhs rhs : T) :
    fast_eq true asRef beq memWords lhs rhs =
      solana_pubkey_compare__fast_eq (memWords lhs) (memWords rhs) := rfl

lemma fast_eq_false_eq {T : Type} (asRef : T → List (Fin 256)) (beq : T → T → Bool)
    (memWords : T → Fin 4 → Nat) (lhs rhs : T) :
    fast_eq false asRef beq memWords lhs rhs = beq lhs rhs := rfl

lemma fast_eq_key_eq_true_iff (t : Bool) (a b : Bytes32) :
    fast_eq_key t a b = true ↔ ∀ k : Fin 32, a k = b k := by
  cases t with
  | false =>
    unfold fast_eq_key
    rw [fast_eq_false_eq, keyBeq]
    exact decide_eq_true_iff
  | true =>
    unfold fast_eq_key
    rw [fast_eq_true_eq, asm_eq_true_iff]
    exact words_eq_iff a b

lemma startsWithChars_iff (needle hay : List Char) :
    startsWithChars needle hay = true ↔ ∃ suf, hay = needle ++ suf := by
  induction needle generalizing hay with
  | nil => simp [startsWithChars]
  | cons a ns ih =>
    cases hay with
    | nil => simp [startsWithChars]
    | cons b bs =>
      simp only [startsWithChars, Bool.and_eq_true, beq_iff_eq, ih, List.cons_append,
        List.cons.injEq]
      constructor
      · rintro ⟨rfl, s, rfl⟩
        exact ⟨s, rfl, rfl⟩
      · rintro ⟨s, rfl, rfl⟩
        exact ⟨rfl, s, rfl⟩

lemma containsSub_iff (hay needle : List Char) :
    containsSub hay needle = true ↔ ∃ pre suf, hay = pre ++ needle ++ suf := by
  induction hay with
  | nil =>
    cases needle <;> simp [containsSub, List.isEmpty]
  | cons a t ih =>
    simp only [containsSub, Bool.or_eq_true, startsWithChars_iff, ih]
    constructor
    · rintro (⟨s, hs⟩ | ⟨p, s, hp⟩)
      · exact ⟨[], s, by simpa using hs⟩
      · exact ⟨a :: p, s, by simp [hp]⟩
    · rintro ⟨p, s, hp⟩
      cases p with
      | nil => exact Or.inl ⟨s, by simpa using hp⟩
      | cons x xs =>
        simp only [List.cons_append, List.cons.injEq] at hp
        obtain ⟨rfl, rfl⟩ := hp
        exact Or.inr ⟨xs, s, rfl⟩

lemma strContains_iff (hay needle : String) :
    strContains hay needle = true ↔ hasSubstr hay needle := by
  exact containsSub_iff hay.data needle.data

/-- Claim C1: for any two `Key` values (the type of the data model, whose byte
views are each exactly 32 bytes and whose structural equality is byte-wise
match), the optimized path (foreign word-wise comparison, Solana target) and
the fallback path (the type's structural equality, any other target) of the
dispatch function return the same boolean for the same inputs. -/
theorem fast_eq_key_paths_agree (a b : Bytes32) :
    (keyAsRef a).length = 32 ∧ (keyAsRef b).length = 32 ∧
    fast_eq_key true a b = fast_eq_key false a b := by
  refine ⟨by simp [keyAsRef], by simp [keyAsRef], ?_⟩
  have h1 := fast_eq_key_eq_true_iff true a b
  have h2 := fast_eq_key_eq_true_iff false a b
  cases hx : fast_eq_key true a b <;> cases hy : fast_eq_key false a b
  · rfl
  · exact absurd (h1.mpr (h2.mp hy)) (by simp [hx])
  · exact absurd (h2.mpr (h1.mp hx)) (by simp [hy])
  · rfl

/-- Claim C2: the foreign comparison routine, on two regions viewed as four
8-byte words in address order, reports equal exactly when all four word pairs
match (hence not-equal exactly when some pair mismatches), and on the word
views of two 32-byte regions it reports equal if and only if the regions are
byte-identical. -/
theorem asm_routine_correct (p q : Fin 4 → Nat) (a b : Bytes32) :
    (solana_pubkey_compare__fast_eq p q = true ↔ ∀ i : Fin 4, p i = q i) ∧
    (solana_pubkey_compare__fast_eq (leWord a) (leWord b) = true ↔
      ∀ k : Fin 32, a k = b k) :=
  ⟨asm_eq_true_iff p q, (asm_eq_true_iff (leWord a) (leWord b)).trans (words_eq_iff a b)⟩

/-- Claim C3: on every build target other than the Solana virtual-machine
target, for every type exposing a byte view and structural equality and for
every pair of values (no restriction on byte-view length), the dispatch
function returns exactly the type's own structural-equality check. -/
theorem fast_eq_nonsolana_is_structural {T : Type} (asRef : T → List (Fin 256))
    (beq : T → T → Bool) (memWords : T → Fin 4 → Nat) (lhs rhs : T) :
    fast_eq false asRef beq memWords lhs rhs = beq lhs rhs :=
  fast_eq_false_eq asRef beq memWords lhs rhs

/-- Claim C4: on either build target, for all 32-byte values differing in at
least one byte, the dispatch function returns false. -/
theorem fast_eq_key_sensitive (t : Bool) (a b : Bytes32)
    (h : ∃ k : Fin 32, a k ≠ b k) :
    fast_eq_key t a b = false := by
  cases hf : fast_eq_key t a b with
  | false => rfl
  | true =>
    obtain ⟨k, hk⟩ := h
    exact absurd ((fast_eq_key_eq_true_iff t a b).mp hf k) hk

/-- Witness for C4: two concrete keys differing only in the last byte (inside
the fourth 8-byte word) compare unequal on the optimized path. -/
theorem fast_eq_key_sensitive_witness :
    (∃ k : Fin 32, exA k ≠ exBLast k) ∧ fast_eq_key true exA exBLast = false :=
  ⟨by decide, fast_eq_key_sensitive true exA exBLast (by decide)⟩

/-- Claim C5: on either build target, for every 32-byte value compared with
itself or with an independently constructed value with identical bytes, the
dispatch function returns true. -/
theorem fast_eq_key_refl (t : Bool) (a b : Bytes32) (h : ∀ k : Fin 32, a k = b k) :
    fast_eq_key t a b = true :=
  (fast_eq_key_eq_true_iff t a b).mpr h

/-- Witness for C5: a concrete key compared against itself and against an
independently constructed identical copy, on both paths. -/
theorem fast_eq_key_refl_witness :
    (∀ k : Fin 32, exA k = exACopy k) ∧
    fast_eq_key true exA exA = true ∧ fast_eq_key false exA exA = true ∧
    fast_eq_key true exA exACopy = true :=
  ⟨by decide, fast_eq_key_refl true exA exA (by decide),
    fast_eq_key_refl false exA exA (by decide),
    fast_eq_key_refl true exA exACopy (by decide)⟩

/-- Claim C6: the build step compiles and links the architecture-specific
assembly module if and only if the build's target identifier contains one of
the two recognized virtual-machine naming substrings, "sbf" or "solana"; for
every other target identifier it skips compilation. -/
theorem build_compiles_asm_iff (target : String) :
    (Build.main (some target)).compiledAsm = true ↔
      (hasSubstr target "sbf" ∨ hasSubstr target "solana") := by
  show (strContains target "sbf" || strContains target "solana") = true ↔ _
  rw [Bool.or_eq_true, strContains_iff, strContains_iff]

/-- Claim C7: the dispatch function is total: on every target, for every type
and every pair of operands it returns a definite boolean (its shallow
embedding is a pure total function, so it has no side effects, mutates
nothing, and raises no runtime error). -/
theorem fast_eq_total {T : Type} (targetOsSolana : Bool) (asRef : T → List (Fin 256))
    (beq : T → T → Bool) (memWords : T → Fin 4 → Nat) (lhs rhs : T) :
    fast_eq targetOsSolana asRef beq memWords lhs rhs = true ∨
    fast_eq targetOsSolana asRef beq memWords lhs rhs = false := by
  cases fast_eq targetOsSolana asRef beq memWords lhs rhs
  · exact Or.inr rfl
  · exact Or.inl rfl

/-- Claim C8: on every build, whatever the target identifier (even absent),
the build step declares a rebuild dependency on the assembly source file. -/
theorem build_rerun_dep (envTarget : Option String) :
    "assert_pubkey_eq.s" ∈ (Build.main envTarget).rerunIfChanged := by
  show "assert_pubkey_eq.s" ∈ ["assert_pubkey_eq.s"]
  simp

/-- Claim C9: on either build target, the dispatch function on 32-byte values
is symmetric: comparing `a` with `b` returns the same boolean as comparing
`b` with `a`. -/
theorem fast_eq_key_symm (t : Bool) (a b : Bytes32) :
    fast_eq_key t a b = fast_eq_key t b a := by
  have h1 := fast_eq_key_eq_true_iff t a b
  have h2 := fast_eq_key_eq_true_iff t b a
  cases hx : fast_eq_key t a b <;> cases hy : fast_eq_key t b a
  · rfl
  · exact absurd (h1.mpr fun k => (h2.mp hy k).symm) (by simp [hx])
  · exact absurd (h2.mpr fun k => (h1.mp hx k).symm) (by simp [hy])
  · rfl

/-- Claim C10: when the `TARGET` environment variable is absent, the build
step behaves exactly as on the empty-string target: it skips assembly
compilation, produces no module, and completes (the model is a total
function). -/
theorem build_absent_target :
    Build.main none = Build.main (some "") ∧ (Build.main none).compiledAsm = false :=
  ⟨rfl, rfl⟩
